import Mathlib

/-!
Shallow embedding of the `gford1000-go/lru` cache library.

The embedding follows the Go sources:
* the non-concurrent LRU store `cache` (map + recency-ordered list) is
  modelled as a recency-ordered association list, most recently used at
  the front, least recently used at the back;
* the actor-serialized `BasicCache` façade is modelled synchronously:
  each public call is serviced end-to-end against the store, a closed
  instance turning the send-on-closed-channel panic into the
  availability error, and an already-cancelled context turning into the
  context error;
* `LoadingCache.GetBatch` and `PartitionedCache` are modelled over the
  same result types, with external collaborators (loader, partitioner,
  delegate caches) passed as function parameters; loader invocations and
  the queue of background write-backs are returned explicitly.
-/

namespace LruSpec

/-- Go `entry` list membership: find the unique element for a key, as the
Go map `c.cache[key]` does. -/
def findEntry {K V : Type} [DecidableEq K] (k : K) : List (K × V) → Option (K × V)
  | [] => none
  | e :: es => if e.1 = k then some e else findEntry k es

/-- Removing the list element held in the Go map for a key
(`c.ll.Remove(e)` plus `delete(c.cache, kv.key)`). -/
def eraseKey {K V : Type} [DecidableEq K] (k : K) : List (K × V) → List (K × V)
  | [] => []
  | e :: es => if e.1 = k then es else e :: eraseKey k es

/-- The Go `cache` struct (src/unnamed/part_001): capacity plus the
recency-ordered entries, front = most recently used. -/
structure cache (K V : Type) where
  capacity : Nat
  entries : List (K × V)

/-- Go `newCache(maxEntries)`. -/
def newCache (K V : Type) (maxEntries : Nat) : cache K V :=
  ⟨maxEntries, []⟩

namespace cache

variable {K V : Type} [DecidableEq K]

/-- The Go map lookup test `_, ok := c.cache[key]`. -/
def containsKey (c : cache K V) (k : K) : Bool :=
  (findEntry k c.entries).isSome

/-- The stored value at a key, without touching recency (the Go map view). -/
def lookup (c : cache K V) (k : K) : Option V :=
  (findEntry k c.entries).map Prod.snd

/-- Go `cache.removeOldest`: drop the back-most (least recently used) entry. -/
def removeOldest (c : cache K V) : cache K V :=
  { c with entries := c.entries.dropLast }

/-- Go `cache.put`: update-and-promote an existing key, otherwise push the
new entry at the front and evict the oldest entry when a positive capacity
is exceeded. -/
def put (c : cache K V) (k : K) (v : V) : cache K V :=
  match findEntry k c.entries with
  | some _ => { c with entries := (k, v) :: eraseKey k c.entries }
  | none =>
    if c.capacity ≠ 0 ∧ c.capacity < ((k, v) :: c.entries).length then
      { c with entries := ((k, v) :: c.entries).dropLast }
    else
      { c with entries := (k, v) :: c.entries }

/-- Go `cache.get`: return the hit flag and value, promoting a hit to the
most-recently-used position. -/
def get (c : cache K V) (k : K) : Option V × cache K V :=
  match findEntry k c.entries with
  | some e => (some e.2, { c with entries := e :: eraseKey k c.entries })
  | none => (none, c)

/-- Go `cache.remove`: delete the entry for the key when present. -/
def remove (c : cache K V) (k : K) : cache K V :=
  { c with entries := eraseKey k c.entries }

/-- Go `cache.len`. -/
def len (c : cache K V) : Nat :=
  c.entries.length

/-- Go `cache.clear`: purge all stored items. -/
def clear (c : cache K V) : cache K V :=
  { c with entries := [] }

end cache

/-- One operation against the eviction store. -/
inductive COp (K V : Type) where
  | put (k : K) (v : V)
  | get (k : K)
  | remove (k : K)
  | clear
deriving DecidableEq

/-- Apply one operation to the store. -/
def applyOp {K V : Type} [DecidableEq K] (c : cache K V) : COp K V → cache K V
  | .put k v => c.put k v
  | .get k => (c.get k).2
  | .remove k => c.remove k
  | .clear => c.clear

/-- Run a sequence of store operations. -/
def runOps {K V : Type} [DecidableEq K] (c : cache K V) (ops : List (COp K V)) : cache K V :=
  ops.foldl applyOp c

/-- Sequentially put each key of a list, with value `f k` for key `k`. -/
def putAll {K V : Type} [DecidableEq K] (c : cache K V) (f : K → V) (ks : List K) : cache K V :=
  ks.foldl (fun a k => a.put k (f k)) c

/-- Key-value pairing used to describe store contents. -/
def pairs {K V : Type} (f : K → V) (ks : List K) : List (K × V) :=
  ks.map (fun k => (k, f k))

/-- One operation on a single fixed key. -/
inductive KOp (V : Type) where
  | put (v : V)
  | get
  | remove
deriving DecidableEq

/-- Apply a single-key operation at key `k`. -/
def applyKOp {K V : Type} [DecidableEq K] (k : K) (c : cache K V) : KOp V → cache K V
  | .put v => c.put k v
  | .get => (c.get k).2
  | .remove => c.remove k

/-- Run a sequence of operations on the single key `k`. -/
def runKeyOps {K V : Type} [DecidableEq K] (k : K) (c : cache K V) (ops : List (KOp V)) :
    cache K V :=
  ops.foldl (applyKOp k) c

/-- The error taxonomy of the library: the typed errors of the Go sources,
plus `external` for opaque errors coming from loaders, partitioners and
delegate caches. -/
inductive Err where
  | timeout
  | unknown
  | invalidCache
  | invalidContext
  | invalidValue
  | invalidPartition
  | external (code : Nat)
deriving DecidableEq

/-- Go `KeyVal`; `value = none` models a Go `nil` value. -/
structure KeyVal (K V : Type) where
  key : K
  value : Option V
deriving DecidableEq

/-- Go `CacheResult`: outcome of retrieving one key. -/
structure CacheResult (K V : Type) where
  key : K
  value : Option V
  ok : Bool
  err : Option Err
deriving DecidableEq

/-- The actor's service of a `getRequest` (src/lru.go): one `cache.get`
per requested key, in order, collecting one `CacheResult` per key. -/
def getFold {K V : Type} [DecidableEq K] (st : cache K V) :
    List K → List (CacheResult K V) × cache K V
  | [] => ([], st)
  | k :: ks =>
    let r := st.get k
    let rest := getFold r.2 ks
    (⟨k, r.1, r.1.isSome, none⟩ :: rest.1, rest.2)

/-- The client-visible state of a `BasicCache`: whether `Close()` has been
called (channels closed), and the actor-owned store. -/
structure BasicCache (K V : Type) where
  closed : Bool
  store : cache K V

/-- A `BasicCache` as `NewBasicCache` hands it out. -/
def newBasicCache (K V : Type) (maxEntries : Nat) : BasicCache K V :=
  ⟨false, newCache K V maxEntries⟩

namespace BasicCache

variable {K V : Type} [DecidableEq K]

/-- Go `BasicCache.Close`: closes the request channels (idempotent thanks
to the recover), upon which the actor clears the store. -/
def Close (c : BasicCache K V) : BasicCache K V :=
  ⟨true, c.store.clear⟩

/-- Go `BasicCache.GetBatch`: an already-ended context fails with the
context error; a closed cache turns the send panic into the availability
error; otherwise the actor services every key. -/
def GetBatch (c : BasicCache K V) (ctxDone : Bool) (keys : List K) :
    Except Err (List (CacheResult K V)) × BasicCache K V :=
  if ctxDone then (.error .invalidContext, c)
  else if c.closed then (.error .invalidCache, c)
  else
    let r := getFold c.store keys
    (.ok r.1, { c with store := r.2 })

/-- Go `BasicCache.Get`: `GetBatch` on the single key, unwrapping the
first result. -/
def Get (c : BasicCache K V) (ctxDone : Bool) (k : K) :
    (Option V × Bool × Option Err) × BasicCache K V :=
  match c.GetBatch ctxDone [k] with
  | (.error e, c') => ((none, false, some e), c')
  | (.ok [], c') => ((none, false, some .unknown), c')
  | (.ok (r :: _), c') => ((r.value, r.ok, r.err), c')

/-- Go `BasicCache.Len`. -/
def Len (c : BasicCache K V) : Except Err Nat × BasicCache K V :=
  if c.closed then (.error .invalidCache, c)
  else (.ok c.store.len, c)

/-- Go `BasicCache.Remove`. -/
def Remove (c : BasicCache K V) (k : K) : Except Err Unit × BasicCache K V :=
  if c.closed then (.error .invalidCache, c)
  else (.ok (), { c with store := c.store.remove k })

/-- The per-pair loop of Go `BasicCache.PutBatch`: a nil value is rejected
before the channel send; the send on a closed cache fails with the
availability error; an accepted pair is applied by the actor. -/
def putLoop (cl : Bool) (st : cache K V) : List (KeyVal K V) → Except Err Unit × cache K V
  | [] => (.ok (), st)
  | kv :: rest =>
    match kv.value with
    | none => (.error .invalidValue, st)
    | some w =>
      if cl then (.error .invalidCache, st)
      else putLoop cl (st.put kv.key w) rest

/-- Go `BasicCache.PutBatch`: context check, empty-batch early return,
then the fail-fast per-pair loop. -/
def PutBatch (c : BasicCache K V) (ctxDone : Bool) (vals : List (KeyVal K V)) :
    Except Err Unit × BasicCache K V :=
  if ctxDone then (.error .invalidContext, c)
  else if vals.isEmpty then (.ok (), c)
  else
    let r := putLoop c.closed c.store vals
    (r.1, { c with store := r.2 })

/-- Go `BasicCache.Put`: a one-pair `PutBatch`. -/
def Put (c : BasicCache K V) (ctxDone : Bool) (k : K) (v : Option V) :
    Except Err Unit × BasicCache K V :=
  c.PutBatch ctxDone [⟨k, v⟩]

end BasicCache

/-- The effect on the store of applying the accepted puts of a batch. -/
def applyPuts {K V : Type} [DecidableEq K] (st : cache K V) :
    List (KeyVal K V) → cache K V
  | [] => st
  | kv :: rest =>
    match kv.value with
    | none => applyPuts st rest
    | some w => applyPuts (st.put kv.key w) rest

/-- Go `LoaderResult` (src/interfaces.go). -/
structure LoaderResult (K V : Type) where
  key : K
  value : Option V
  err : Option Err
deriving DecidableEq

/-- The per-result update of `LoadingCache.GetBatch`'s merge loop: a load
error marks the entry not-found with the error attached; otherwise the
loaded value is written and a non-nil value marks the entry found. -/
def applyLoad {K V : Type} (lr : LoaderResult K V) (cr : CacheResult K V) : CacheResult K V :=
  if lr.err.isSome then { cr with err := lr.err, ok := false }
  else { cr with value := lr.value, ok := lr.value.isSome || cr.ok }

/-- Merge one loader result into the first response entry whose key
matches, as the inner loop (with `break`) of `LoadingCache.GetBatch`
does; the flag reports whether the result was queued for write-back. -/
def mergeOne {K V : Type} [DecidableEq K] (lr : LoaderResult K V) :
    List (CacheResult K V) → List (CacheResult K V) × Bool
  | [] => ([], false)
  | cr :: rest =>
    if lr.key = cr.key then
      (applyLoad lr cr :: rest, lr.err.isNone && lr.value.isSome)
    else
      let r := mergeOne lr rest
      (cr :: r.1, r.2)

/-- Merge every loader result in order, collecting the `toCache`
write-back queue. -/
def mergeAll {K V : Type} [DecidableEq K] (res : List (CacheResult K V)) :
    List (LoaderResult K V) → List (CacheResult K V) × List (LoaderResult K V)
  | [] => (res, [])
  | lr :: lrs =>
    let m := mergeOne lr res
    let rest := mergeAll m.1 lrs
    (rest.1, if m.2 then lr :: rest.2 else rest.2)

/-- First response entry for a key, as the merge loop locates it. -/
def lookupRes {K V : Type} [DecidableEq K] (k : K) :
    List (CacheResult K V) → Option (CacheResult K V)
  | [] => none
  | cr :: rest => if cr.key = k then some cr else lookupRes k rest

namespace LoadingCache

/-- Go `LoadingCache.GetBatch` (src/interfaces.go): delegate to the wrapped
`BasicCache`, collect the keys that came back not-found or errored, invoke
the loader once on them, check the result count, merge the results back by
key, and queue loaded values for detached write-back.  Returns the call
result, the wrapped cache's state, the list of loader invocations, and the
`toCache` write-back queue. -/
def GetBatch {K V : Type} [DecidableEq K] (c : BasicCache K V)
    (loader : List K → List (LoaderResult K V) × Option Err)
    (ctxDone : Bool) (keys : List K) :
    Except Err (List (CacheResult K V)) × BasicCache K V × List (List K) ×
      List (LoaderResult K V) :=
  if ctxDone then (.error .invalidContext, c, [], [])
  else
    let g := c.GetBatch ctxDone keys
    match g.1 with
    | .error e => (.error e, g.2, [], [])
    | .ok res =>
      if res.length ≠ keys.length then (.error .unknown, g.2, [], [])
      else
        let loaderKeys := (res.filter (fun r => r.err.isSome || !r.ok)).map CacheResult.key
        if loaderKeys.isEmpty then (.ok res, g.2, [], [])
        else
          let lres := loader loaderKeys
          match lres.2 with
          | some e => (.error e, g.2, [loaderKeys], [])
          | none =>
            if lres.1.length ≠ loaderKeys.length then (.error .unknown, g.2, [loaderKeys], [])
            else
              let m := mergeAll res lres.1
              (.ok m.1, g.2, [loaderKeys], m.2)

end LoadingCache

/-- The response the basic cache produces for `keys` on a live call: one
result per key, in order, found iff the key is stored. -/
def baseResults {K V : Type} [DecidableEq K] (c : BasicCache K V) (keys : List K) :
    List (CacheResult K V) :=
  keys.map fun j => ⟨j, c.store.lookup j, (c.store.lookup j).isSome, none⟩

/-- The requested keys that the store cannot serve — the set handed to the
loader. -/
def missingOf {K V : Type} [DecidableEq K] (c : BasicCache K V) (keys : List K) : List K :=
  keys.filter fun j => (c.store.lookup j).isNone

/-- The basic cache after the recency promotions of a batch get. -/
def afterGets {K V : Type} [DecidableEq K] (c : BasicCache K V) (keys : List K) :
    BasicCache K V :=
  { c with store := (getFold c.store keys).2 }

/-- Go `PartitionedCache` (src/lru_by_partition.go): the partitioner and the
partition table.  Partition names and delegate caches are coded as naturals;
two table rows with the same delegate number model two names sharing one
cache instance (Go pointer equality). -/
structure PartitionedCache (K : Type) where
  partitioner : K → Except Err Nat
  partitions : List (Nat × Nat)

namespace PartitionedCache

variable {K V : Type} [DecidableEq K]

/-- Go `PartitionedCache.getCacheForKey`: empty table (post-Close) is the
availability error; a partitioner error propagates; an unknown partition
name is the invalid-partition error. -/
def getCacheForKey (p : PartitionedCache K) (k : K) : Except Err Nat :=
  if p.partitions.isEmpty then .error .invalidCache
  else
    match p.partitioner k with
    | .error e => .error e
    | .ok part =>
      match findEntry part p.partitions with
      | none => .error .invalidPartition
      | some q => .ok q.2

/-- Go `PartitionedCache.Close`: close every delegate and empty the table. -/
def Close (p : PartitionedCache K) : PartitionedCache K :=
  { p with partitions := [] }

/-- The summation loop of Go `PartitionedCache.Len`, aborting on the first
delegate error; `dLen` is the delegate caches' `Len` behaviour. -/
def lenFold (dLen : Nat → Except Err Nat) : List (Nat × Nat) → Except Err Nat
  | [] => .ok 0
  | q :: rest =>
    match dLen q.2 with
    | .error e => .error e
    | .ok n =>
      match lenFold dLen rest with
      | .error e => .error e
      | .ok m => .ok (n + m)

/-- Go `PartitionedCache.Len`. -/
def Len (p : PartitionedCache K) (dLen : Nat → Except Err Nat) : Except Err Nat :=
  lenFold dLen p.partitions

/-- Append a key to its delegate's group, creating the group at the end on
first sight of the delegate, as the `processes` loop of `GetBatch` does. -/
def addToGroups {K : Type} (gs : List (Nat × List K)) (id : Nat) (k : K) :
    List (Nat × List K) :=
  match gs with
  | [] => [(id, [k])]
  | g :: rest =>
    if g.1 = id then (g.1, g.2 ++ [k]) :: rest
    else g :: addToGroups rest id k

/-- Resolve every key to its delegate up front, grouping keys by delegate
and aborting on the first resolution error. -/
def resolveFrom (p : PartitionedCache K) (gs : List (Nat × List K)) :
    List K → Except Err (List (Nat × List K))
  | [] => .ok gs
  | k :: ks =>
    match p.getCacheForKey k with
    | .error e => .error e
    | .ok id => resolveFrom p (addToGroups gs id k) ks

/-- Collect the fanned-out delegate responses in process order,
concatenating results and failing the whole call on the first delegate
error; `d` is the delegate caches' `GetBatch` behaviour. -/
def collect (d : Nat → List K → Except Err (List (CacheResult K V))) :
    List (Nat × List K) → Except Err (List (CacheResult K V))
  | [] => .ok []
  | g :: rest =>
    match d g.1 g.2 with
    | .error e => .error e
    | .ok rs =>
      match collect d rest with
      | .error e => .error e
      | .ok more => .ok (rs ++ more)

/-- Go `PartitionedCache.GetBatch`: context check, up-front resolution of
every key, fan-out of one `GetBatch` per distinct delegate, aggregation.
Returns the call result and the list of delegate invocations actually
issued (delegate, keys). -/
def GetBatch (p : PartitionedCache K)
    (d : Nat → List K → Except Err (List (CacheResult K V)))
    (ctxDone : Bool) (keys : List K) :
    Except Err (List (CacheResult K V)) × List (Nat × List K) :=
  if ctxDone then (.error .invalidContext, [])
  else
    match resolveFrom p [] keys with
    | .error e => (.error e, [])
    | .ok groups => (collect d groups, groups)

end PartitionedCache

section EntryLemmas

variable {K V : Type} [DecidableEq K]

theorem findEntry_key_eq {k : K} :
    ∀ {l : List (K × V)} {e : K × V}, findEntry k l = some e → e.1 = k := by
  intro l
  induction l with
  | nil => intro e h; simp [findEntry] at h
  | cons a as ih =>
    intro e h
    by_cases ha : a.1 = k
    · simp [findEntry, ha] at h
      exact h ▸ ha
    · simp [findEntry, ha] at h
      exact ih h

theorem findEntry_mem {k : K} :
    ∀ {l : List (K × V)} {e : K × V}, findEntry k l = some e → e ∈ l := by
  intro l
  induction l with
  | nil => intro e h; simp [findEntry] at h
  | cons a as ih =>
    intro e h
    by_cases ha : a.1 = k
    · simp [findEntry, ha] at h
      simp [h]
    · simp [findEntry, ha] at h
      exact List.mem_cons_of_mem a (ih h)

theorem findEntry_eq_none_iff {k : K} {l : List (K × V)} :
    findEntry k l = none ↔ ∀ e ∈ l, e.1 ≠ k := by
  induction l with
  | nil => simp [findEntry]
  | cons a as ih =>
    by_cases ha : a.1 = k
    · simp [findEntry, ha]
    · simp [findEntry, ha, ih]

theorem findEntry_isSome_iff {k : K} {l : List (K × V)} :
    (findEntry k l).isSome = true ↔ k ∈ l.map Prod.fst := by
  induction l with
  | nil => simp [findEntry]
  | cons a as ih =>
    by_cases ha : a.1 = k
    · simp [findEntry, ha]
    · simp [findEntry, ha, ih, Ne.symm ha]

theorem eraseKey_length_of_found {k : K} :
    ∀ {l : List (K × V)} {e : K × V}, findEntry k l = some e →
      (eraseKey k l).length + 1 = l.length := by
  intro l
  induction l with
  | nil => intro e h; simp [findEntry] at h
  | cons a as ih =>
    intro e h
    by_cases ha : a.1 = k
    · simp [eraseKey, ha]
    · simp [findEntry, ha] at h
      simp [eraseKey, ha, ih h]

theorem eraseKey_length_le {k : K} :
    ∀ (l : List (K × V)), (eraseKey k l).length ≤ l.length := by
  intro l
  induction l with
  | nil => simp [eraseKey]
  | cons a as ih =>
    by_cases ha : a.1 = k
    · simp [eraseKey, ha]
    · simp [eraseKey, ha]
      exact ih

theorem findEntry_eraseKey_ne {k k' : K} (hne : k ≠ k') :
    ∀ (l : List (K × V)), findEntry k (eraseKey k' l) = findEntry k l := by
  intro l
  induction l with
  | nil => simp [eraseKey]
  | cons a as ih =>
    by_cases ha : a.1 = k'
    · have hak : a.1 ≠ k := by rw [ha]; exact fun h => hne h.symm
      simp [eraseKey, findEntry, ha, hak, Ne.symm hne]
    · by_cases hak : a.1 = k
      · simp [eraseKey, findEntry, ha, hak, hne]
      · simp [eraseKey, findEntry, ha, hak, ih]

theorem findEntry_eraseKey_self {k : K} :
    ∀ {l : List (K × V)}, (l.map Prod.fst).Nodup →
      findEntry k (eraseKey k l) = none := by
  intro l
  induction l with
  | nil => intro _; simp [eraseKey, findEntry]
  | cons a as ih =>
    intro hnd
    simp only [List.map_cons, List.nodup_cons] at hnd
    by_cases ha : a.1 = k
    · rw [eraseKey, if_pos ha, findEntry_eq_none_iff]
      intro e he hk
      exact hnd.1 (ha ▸ hk ▸ List.mem_map_of_mem Prod.fst he)
    · rw [eraseKey, if_neg ha, findEntry, if_neg ha]
      exact ih hnd.2

theorem findEntry_append_of_ne {k : K} :
    ∀ {l₁ l₂ : List (K × V)}, (∀ e ∈ l₁, e.1 ≠ k) →
      findEntry k (l₁ ++ l₂) = findEntry k l₂ := by
  intro l₁
  induction l₁ with
  | nil => intro l₂ _; simp
  | cons a as ih =>
    intro l₂ h
    have ha : a.1 ≠ k := h a (by simp)
    rw [List.cons_append, findEntry, if_neg ha]
    exact ih fun e he => h e (List.mem_cons_of_mem a he)

theorem eraseKey_append_of_ne {k : K} :
    ∀ {l₁ l₂ : List (K × V)}, (∀ e ∈ l₁, e.1 ≠ k) →
      eraseKey k (l₁ ++ l₂) = l₁ ++ eraseKey k l₂ := by
  intro l₁
  induction l₁ with
  | nil => intro l₂ _; simp
  | cons a as ih =>
    intro l₂ h
    have ha : a.1 ≠ k := h a (by simp)
    rw [List.cons_append, eraseKey, if_neg ha, ih fun e he => h e (List.mem_cons_of_mem a he),
      List.cons_append]

theorem findEntry_pairs_of_mem {f : K → V} {k : K} :
    ∀ {ks : List K}, k ∈ ks → findEntry k (pairs f ks) = some (k, f k) := by
  intro ks
  induction ks with
  | nil => intro h; simp at h
  | cons a as ih =>
    intro h
    by_cases ha : a = k
    · subst ha
      simp [pairs, findEntry]
    · rcases List.mem_cons.mp h with h' | h'
      · exact absurd h'.symm ha
      · simpa [pairs, findEntry, ha] using ih h'

theorem findEntry_pairs_of_not_mem {f : K → V} {k : K} {ks : List K} (h : k ∉ ks) :
    findEntry k (pairs f ks) = none := by
  rw [findEntry_eq_none_iff]
  intro e he hk
  rcases List.mem_map.mp he with ⟨a, ha, rfl⟩
  exact h (hk ▸ ha)

theorem keys_pairs {f : K → V} (ks : List K) :
    (pairs f ks).map Prod.fst = ks := by
  induction ks with
  | nil => rfl
  | cons a as ih => simpa [pairs] using ih

end EntryLemmas

section CacheLemmas

variable {K V : Type} [DecidableEq K]

theorem dropLast_take_eq {α : Type} {n : Nat} {xs : List α} (h : n ≤ xs.length) :
    (xs.take n).dropLast = xs.take (n - 1) := by
  rw [List.dropLast_eq_take, List.length_take, List.take_take]
  rw [Nat.min_eq_left h, Nat.min_eq_left (Nat.sub_le n 1)]

theorem dropLast_cons_of_ne_nil {α : Type} (a : α) {l : List α} (h : l ≠ []) :
    (a :: l).dropLast = a :: l.dropLast := by
  cases l with
  | nil => exact absurd rfl h
  | cons b bs => rfl

theorem capacity_put (c : cache K V) (k : K) (v : V) :
    (c.put k v).capacity = c.capacity := by
  simp only [cache.put]
  split
  · rfl
  · split <;> rfl

theorem capacity_get (c : cache K V) (k : K) : ((c.get k).2).capacity = c.capacity := by
  simp only [cache.get]
  split <;> rfl

theorem capacity_remove (c : cache K V) (k : K) : (c.remove k).capacity = c.capacity := rfl

theorem capacity_clear (c : cache K V) : c.clear.capacity = c.capacity := rfl

theorem get_fst (c : cache K V) (k : K) : (c.get k).1 = c.lookup k := by
  cases h : findEntry k c.entries <;> simp [cache.get, cache.lookup, h]

theorem lookup_get (c : cache K V) (k k' : K) :
    ((c.get k').2).lookup k = c.lookup k := by
  cases h : findEntry k' c.entries with
  | none => simp [cache.get, h]
  | some e =>
    have he : e.1 = k' := findEntry_key_eq h
    by_cases hk : k = k'
    · subst hk
      simp [cache.get, h, cache.lookup, findEntry, he]
    · have h1 : findEntry k (e :: eraseKey k' c.entries) = findEntry k c.entries := by
        rw [findEntry, if_neg fun hh => hk (hh.symm.trans he)]
        exact findEntry_eraseKey_ne hk _
      simp [cache.get, h, cache.lookup, h1]

theorem len_get (c : cache K V) (k : K) : ((c.get k).2).len = c.len := by
  cases h : findEntry k c.entries with
  | none => simp [cache.get, h]
  | some e =>
    have hl := eraseKey_length_of_found h
    simp [cache.get, h, cache.len]
    omega

theorem lookup_put_self (c : cache K V) (k : K) (v : V) :
    (c.put k v).lookup k = some v := by
  cases h : findEntry k c.entries with
  | some e => simp [cache.put, h, cache.lookup, findEntry]
  | none =>
    simp only [cache.put, h]
    split
    · next hcond =>
      have hne : c.entries ≠ [] := by
        intro hnil
        rw [hnil] at hcond
        simp at hcond
      rw [dropLast_cons_of_ne_nil _ hne]
      simp [cache.lookup, findEntry]
    · simp [cache.lookup, findEntry]

theorem head_put (c : cache K V) (k : K) (v : V) :
    (c.put k v).entries.head? = some (k, v) := by
  cases h : findEntry k c.entries with
  | some e => simp [cache.put, h]
  | none =>
    simp only [cache.put, h]
    split
    · next hcond =>
      have hne : c.entries ≠ [] := by
        intro hnil
        rw [hnil] at hcond
        simp at hcond
      rw [dropLast_cons_of_ne_nil _ hne]
      rfl
    · rfl

theorem len_put_of_found {c : cache K V} {k : K} {e : K × V}
    (h : findEntry k c.entries = some e) (v : V) :
    (c.put k v).len = c.len := by
  have hl := eraseKey_length_of_found h
  simp [cache.put, h, cache.len]
  omega

theorem len_put_le {c : cache K V} (hlen : c.len ≤ c.capacity) (hpos : 0 < c.capacity)
    (k : K) (v : V) : (c.put k v).len ≤ c.capacity := by
  have hl : c.entries.length ≤ c.capacity := hlen
  cases h : findEntry k c.entries with
  | some e => rw [len_put_of_found h] ; exact hlen
  | none =>
    simp only [cache.put, h]
    split
    · next hcond =>
      simp [cache.len]
      omega
    · next hcond =>
      simp [cache.len]
      simp only [ne_eq, List.length_cons, not_and, not_lt] at hcond
      have := hcond (by omega)
      omega

theorem lookup_remove_self {c : cache K V} (hnd : (c.entries.map Prod.fst).Nodup) (k : K) :
    (c.remove k).lookup k = none := by
  simp [cache.remove, cache.lookup, findEntry_eraseKey_self hnd]

theorem len_remove_le (c : cache K V) (k : K) : (c.remove k).len ≤ c.len := by
  simpa [cache.remove, cache.len] using eraseKey_length_le (k := k) c.entries

theorem capacity_applyOp (c : cache K V) (op : COp K V) :
    (applyOp c op).capacity = c.capacity := by
  cases op with
  | put k v => exact capacity_put c k v
  | get k => exact capacity_get c k
  | remove k => exact capacity_remove c k
  | clear => exact capacity_clear c

theorem len_applyOp_le {c : cache K V} (hlen : c.len ≤ c.capacity) (hpos : 0 < c.capacity)
    (op : COp K V) : (applyOp c op).len ≤ c.capacity := by
  cases op with
  | put k v => exact len_put_le hlen hpos k v
  | get k => rw [applyOp, len_get]; exact hlen
  | remove k => exact le_trans (len_remove_le c k) hlen
  | clear => simp [applyOp, cache.clear, cache.len]

theorem len_runOps_le :
    ∀ (ops : List (COp K V)) (c : cache K V), 0 < c.capacity → c.len ≤ c.capacity →
      (runOps c ops).len ≤ c.capacity := by
  intro ops
  induction ops with
  | nil => intro c _ h; exact h
  | cons op ops ih =>
    intro c hpos hlen
    have hcap := capacity_applyOp c op
    have h1 : (runOps (applyOp c op) ops).len ≤ (applyOp c op).capacity :=
      ih (applyOp c op) (hcap ▸ hpos) (hcap ▸ len_applyOp_le hlen hpos op)
    rw [hcap] at h1
    exact h1

end CacheLemmas

section FillLemmas

variable {K V : Type} [DecidableEq K]

theorem pairs_length {f : K → V} (l : List K) : (pairs f l).length = l.length := by
  simp [pairs]

theorem pairs_dropLast {f : K → V} (l : List K) :
    (pairs f l).dropLast = pairs f l.dropLast := by
  rw [List.dropLast_eq_take, List.dropLast_eq_take, pairs_length]
  simp [pairs, List.map_take]

theorem pairs_append {f : K → V} (l₁ l₂ : List K) :
    pairs f (l₁ ++ l₂) = pairs f l₁ ++ pairs f l₂ := by
  simp [pairs]

theorem key_mem_of_mem_pairs {f : K → V} {l : List K} {e : K × V} (h : e ∈ pairs f l) :
    e.1 ∈ l := by
  rcases List.mem_map.mp h with ⟨a, ha, rfl⟩
  exact ha

theorem putAll_append (c : cache K V) (f : K → V) (l : List K) (a : K) :
    putAll c f (l ++ [a]) = (putAll c f l).put a (f a) := by
  simp [putAll, List.foldl_append]

theorem capacity_putAll (c : cache K V) (f : K → V) :
    ∀ (ks : List K), (putAll c f ks).capacity = c.capacity := by
  intro ks
  induction ks generalizing c with
  | nil => rfl
  | cons a as ih =>
    show (putAll (c.put a (f a)) f as).capacity = c.capacity
    rw [ih, capacity_put]

theorem putAll_entries (m : Nat) (f : K → V) :
    ∀ (ks : List K), ks.Nodup →
      (putAll (newCache K V (m + 1)) f ks).entries = pairs f (ks.reverse.take (m + 1)) := by
  intro ks
  induction ks using List.reverseRecOn with
  | nil => intro _; simp [putAll, newCache, pairs]
  | append_singleton l a ih =>
    intro hnd
    rw [List.nodup_append] at hnd
    have ha : a ∉ l := List.disjoint_singleton.mp hnd.2.2
    have hent := ih hnd.1
    rw [putAll_append]
    have hfind : findEntry a (putAll (newCache K V (m + 1)) f l).entries = none := by
      rw [hent]
      exact findEntry_pairs_of_not_mem fun hmem =>
        ha (List.mem_reverse.mp (List.take_subset _ _ hmem))
    have hcap : (putAll (newCache K V (m + 1)) f l).capacity = m + 1 :=
      capacity_putAll _ f l
    have hlen : (putAll (newCache K V (m + 1)) f l).entries.length =
        if m + 1 ≤ l.length then m + 1 else l.length := by
      rw [hent, pairs_length, List.length_take, List.length_reverse, Nat.min_def]
    rw [List.reverse_append, List.reverse_singleton, List.singleton_append,
      List.take_succ_cons]
    simp only [cache.put, hfind, hcap]
    by_cases hml : l.length ≤ m
    · have hlen' : (putAll (newCache K V (m + 1)) f l).entries.length = l.length := by
        rw [hlen, if_neg (by omega)]
      rw [if_neg]
      · rw [hent]
        have h1 : l.reverse.take (m + 1) = l.reverse := by
          apply List.take_of_length_le
          rw [List.length_reverse]; omega
        have h2 : l.reverse.take m = l.reverse := by
          apply List.take_of_length_le
          rw [List.length_reverse]; omega
        rw [h1, h2]
        rfl
      · rw [List.length_cons, hlen']
        intro hc
        omega
    · have hlen' : (putAll (newCache K V (m + 1)) f l).entries.length = m + 1 := by
        rw [hlen, if_pos (by omega)]
      rw [if_pos]
      · rw [hent, dropLast_cons_of_ne_nil, pairs_dropLast, dropLast_take_eq]
        · rfl
        · rw [List.length_reverse]; omega
        · intro hnil
          have := pairs_length (f := f) (l.reverse.take (m + 1))
          rw [hnil] at this
          simp [List.length_take, List.length_reverse] at this
          omega
      · constructor
        · omega
        · rw [List.length_cons, hlen']
          omega

/-- The back `N` segment of `range (N + k)` reversed: the keys surviving a
fill of `N + k` distinct keys into capacity `N`. -/
theorem reverse_range_take (N k : Nat) :
    (List.range (N + k)).reverse.take N = ((List.range N).map (fun i => k + i)).reverse := by
  have h1 : List.range (N + k) = List.range k ++ (List.range N).map (fun i => k + i) := by
    rw [Nat.add_comm N k, List.range_add]
  rw [h1, List.reverse_append]
  exact List.take_left' (by simp)

theorem put_entries_of_found {c : cache K V} {k : K} {e : K × V}
    (h : findEntry k c.entries = some e) (v : V) :
    (c.put k v).entries = (k, v) :: eraseKey k c.entries := by
  simp only [cache.put, h]

theorem put_entries_of_full {c : cache K V} {k : K}
    (hf : findEntry k c.entries = none) (hpos : 0 < c.capacity)
    (hfull : c.entries.length = c.capacity) (v : V) :
    (c.put k v).entries = ((k, v) :: c.entries).dropLast := by
  simp only [cache.put, hf]
  rw [if_pos]
  exact ⟨by omega, by rw [List.length_cons]; omega⟩

/-- The capacity-`M + 2` scenario: fill with keys `0 .. M+1`, re-put the
oldest key `0`, then insert the fresh key `M + 2`.  The re-put key survives
at the second position and the second-oldest key `1` is the entry evicted. -/
theorem rePutScenarioEntries (M : Nat) (f : Nat → Nat) (w : Nat) :
    (((putAll (newCache Nat Nat (M + 2)) f (List.range (M + 2))).put 0 w).put (M + 2)
        (f (M + 2))).entries
      = (M + 2, f (M + 2)) :: (0, w) ::
          pairs f ((List.map Nat.succ (List.map Nat.succ (List.range M))).reverse) := by
  have h0 : (putAll (newCache Nat Nat (M + 2)) f (List.range (M + 2))).entries
      = pairs f ((List.map Nat.succ (List.range (M + 1))).reverse) ++ [(0, f 0)] := by
    rw [putAll_entries (M + 1) f (List.range (M + 2)) (List.nodup_range _),
      List.take_of_length_le (by rw [List.length_reverse, List.length_range]),
      List.range_succ_eq_map, List.reverse_cons, pairs_append]
    rfl
  have hkeys1 : ∀ e ∈ pairs f ((List.map Nat.succ (List.range (M + 1))).reverse),
      e.1 ≠ (0 : Nat) := by
    intro e he
    have := List.mem_reverse.mp (key_mem_of_mem_pairs he)
    rcases List.mem_map.mp this with ⟨x, _, hx⟩
    omega
  have hf0 : findEntry 0 (putAll (newCache Nat Nat (M + 2)) f (List.range (M + 2))).entries
      = some (0, f 0) := by
    rw [h0, findEntry_append_of_ne hkeys1]
    simp [findEntry]
  have hc1 : ((putAll (newCache Nat Nat (M + 2)) f (List.range (M + 2))).put 0 w).entries
      = (0, w) :: pairs f ((List.map Nat.succ (List.range (M + 1))).reverse) := by
    rw [put_entries_of_found hf0, h0, eraseKey_append_of_ne hkeys1]
    simp [eraseKey]
  have hkeys2 : ∀ e ∈ (0, w) :: pairs f ((List.map Nat.succ (List.range (M + 1))).reverse),
      e.1 ≠ M + 2 := by
    intro e he
    rcases List.mem_cons.mp he with h | h
    · rw [h]; omega
    · have := List.mem_reverse.mp (key_mem_of_mem_pairs h)
      rcases List.mem_map.mp this with ⟨x, hx, hxe⟩
      have hxlt := List.mem_range.mp hx
      omega
  have hf2 : findEntry (M + 2)
      ((putAll (newCache Nat Nat (M + 2)) f (List.range (M + 2))).put 0 w).entries = none := by
    rw [hc1]
    exact findEntry_eq_none_iff.mpr hkeys2
  have hcap : ((putAll (newCache Nat Nat (M + 2)) f (List.range (M + 2))).put 0 w).capacity
      = M + 2 := by
    rw [capacity_put, capacity_putAll]
    rfl
  have hlen : ((putAll (newCache Nat Nat (M + 2)) f (List.range (M + 2))).put 0 w).entries.length
      = M + 2 := by
    rw [hc1, List.length_cons, pairs_length, List.length_reverse, List.length_map,
      List.length_range]
  rw [put_entries_of_full hf2 (by omega) (by omega)]
  have hsplit : (List.map Nat.succ (List.range (M + 1))).reverse
      = (List.map Nat.succ (List.map Nat.succ (List.range M))).reverse ++ [1] := by
    rw [List.range_succ_eq_map, List.map_cons, List.reverse_cons]
  rw [hc1, hsplit, pairs_append]
  have hassoc : ((M + 2, f (M + 2)) : Nat × Nat) :: (0, w) ::
      (pairs f ((List.map Nat.succ (List.map Nat.succ (List.range M))).reverse) ++
        pairs f [1])
      = ((M + 2, f (M + 2)) :: (0, w) ::
          pairs f ((List.map Nat.succ (List.map Nat.succ (List.range M))).reverse)) ++
          [(1, f 1)] := by
    simp [pairs]
  rw [hassoc, List.dropLast_concat]

end FillLemmas

section BasicLemmas

variable {K V : Type} [DecidableEq K]

theorem getFold_results (keys : List K) :
    ∀ (st : cache K V),
      (getFold st keys).1
          = keys.map (fun k => ⟨k, st.lookup k, (st.lookup k).isSome, none⟩) ∧
        ∀ k', ((getFold st keys).2).lookup k' = st.lookup k' := by
  induction keys with
  | nil => intro st; exact ⟨rfl, fun k' => rfl⟩
  | cons k ks ih =>
    intro st
    have hrec := ih (st.get k).2
    constructor
    · show (⟨k, (st.get k).1, (st.get k).1.isSome, none⟩ : CacheResult K V) ::
          (getFold (st.get k).2 ks).1 = _
      rw [get_fst, hrec.1]
      have hfun : (fun k' =>
            (⟨k', ((st.get k).2).lookup k', (((st.get k).2).lookup k').isSome, none⟩ :
              CacheResult K V))
          = fun k' => ⟨k', st.lookup k', (st.lookup k').isSome, none⟩ := by
        funext k'
        rw [lookup_get]
      rw [hfun, List.map_cons]
    · intro k'
      show ((getFold (st.get k).2 ks).2).lookup k' = st.lookup k'
      rw [hrec.2 k', lookup_get]

theorem loaderKeys_eq (st : cache K V) (keys : List K) :
    ((keys.map
          (fun k => (⟨k, st.lookup k, (st.lookup k).isSome, none⟩ : CacheResult K V))).filter
        (fun r => r.err.isSome || !r.ok)).map CacheResult.key
      = keys.filter (fun k => (st.lookup k).isNone) := by
  induction keys with
  | nil => rfl
  | cons k ks ih =>
    cases h : st.lookup k with
    | none => simp [h, List.filter_cons, ih]
    | some w => simp [h, List.filter_cons, ih]

theorem putLoop_append_invalid (bk : K) (rest : List (KeyVal K V)) :
    ∀ (good : List (KeyVal K V)) (st : cache K V),
      (∀ kv ∈ good, kv.value.isSome = true) →
      BasicCache.putLoop false st (good ++ ⟨bk, none⟩ :: rest)
        = (.error .invalidValue, applyPuts st good) := by
  intro good
  induction good with
  | nil => intro st _; simp [BasicCache.putLoop, applyPuts]
  | cons kv good ih =>
    intro st h
    have hkv := h kv (by simp)
    cases hv : kv.value with
    | none => rw [hv] at hkv; simp at hkv
    | some w =>
      show BasicCache.putLoop false st (kv :: (good ++ ⟨bk, none⟩ :: rest)) = _
      rw [BasicCache.putLoop, hv]
      simp only [Bool.false_eq_true, if_false]
      rw [ih (st.put kv.key w) fun kv' h' => h kv' (List.mem_cons_of_mem _ h')]
      have : applyPuts st (kv :: good) = applyPuts (st.put kv.key w) good := by
        rw [applyPuts, hv]
      rw [this]

end BasicLemmas

section MergeLemmas

variable {K V : Type} [DecidableEq K]

theorem applyLoad_key (lr : LoaderResult K V) (cr : CacheResult K V) :
    (applyLoad lr cr).key = cr.key := by
  rw [applyLoad]
  split <;> rfl

theorem mergeOne_not_mem {lr : LoaderResult K V} :
    ∀ {res : List (CacheResult K V)}, lr.key ∉ res.map CacheResult.key →
      mergeOne lr res = (res, false) := by
  intro res
  induction res with
  | nil => intro _; rfl
  | cons cr rest ih =>
    intro h
    rw [List.map_cons, List.mem_cons] at h
    push_neg at h
    rw [mergeOne, if_neg h.1, ih h.2]

theorem mergeOne_keys (lr : LoaderResult K V) :
    ∀ (res : List (CacheResult K V)),
      (mergeOne lr res).1.map CacheResult.key = res.map CacheResult.key := by
  intro res
  induction res with
  | nil => rfl
  | cons cr rest ih =>
    by_cases h : lr.key = cr.key
    · rw [mergeOne, if_pos h]
      simp [applyLoad_key]
    · rw [mergeOne, if_neg h]
      simp only [List.map_cons]
      rw [ih]

theorem lookupRes_mergeOne_ne {lr : LoaderResult K V} {k : K} (hne : k ≠ lr.key) :
    ∀ (res : List (CacheResult K V)),
      lookupRes k (mergeOne lr res).1 = lookupRes k res := by
  intro res
  induction res with
  | nil => rfl
  | cons cr rest ih =>
    by_cases h : lr.key = cr.key
    · have hck : cr.key ≠ k := fun hc => hne (hc.symm.trans h.symm)
      rw [mergeOne, if_pos h]
      rw [lookupRes, if_neg (by rw [applyLoad_key]; exact hck), lookupRes, if_neg hck]
    · rw [mergeOne, if_neg h]
      by_cases hck : cr.key = k
      · rw [lookupRes, if_pos hck, lookupRes, if_pos hck]
      · rw [lookupRes, if_neg hck, lookupRes, if_neg hck, ih]

theorem lookupRes_mergeOne_self {lr : LoaderResult K V} :
    ∀ {res : List (CacheResult K V)}, lr.key ∈ res.map CacheResult.key →
      lookupRes lr.key (mergeOne lr res).1
          = (lookupRes lr.key res).map (applyLoad lr) ∧
        (mergeOne lr res).2 = (lr.err.isNone && lr.value.isSome) := by
  intro res
  induction res with
  | nil => intro h; simp at h
  | cons cr rest ih =>
    intro h
    by_cases hk : lr.key = cr.key
    · rw [mergeOne, if_pos hk]
      refine ⟨?_, rfl⟩
      rw [lookupRes, if_pos (by rw [applyLoad_key]; exact hk.symm),
        lookupRes, if_pos hk.symm]
      rfl
    · rw [List.map_cons, List.mem_cons] at h
      rcases h with h | h
      · exact absurd h hk
      · rw [mergeOne, if_neg hk]
        have hck : cr.key ≠ lr.key := fun hc => hk hc.symm
        rcases ih h with ⟨ih1, ih2⟩
        refine ⟨?_, ih2⟩
        rw [lookupRes, if_neg hck, lookupRes, if_neg hck, ih1]

theorem lookupRes_isSome_iff {k : K} :
    ∀ {res : List (CacheResult K V)},
      (lookupRes k res).isSome = true ↔ k ∈ res.map CacheResult.key := by
  intro res
  induction res with
  | nil => simp [lookupRes]
  | cons cr rest ih =>
    by_cases h : cr.key = k
    · simp [lookupRes, h]
    · rw [lookupRes, if_neg h, ih, List.map_cons, List.mem_cons]
      constructor
      · exact Or.inr
      · rintro (hc | hc)
        · exact absurd hc.symm h
        · exact hc

theorem mergeAll_keys :
    ∀ (lrs : List (LoaderResult K V)) (res : List (CacheResult K V)),
      (mergeAll res lrs).1.map CacheResult.key = res.map CacheResult.key := by
  intro lrs
  induction lrs with
  | nil => intro res; rfl
  | cons lr lrs ih =>
    intro res
    show ((mergeAll (mergeOne lr res).1 lrs).1).map CacheResult.key = _
    rw [ih, mergeOne_keys]

theorem lookupRes_mergeAll_of_ne {k : K} :
    ∀ (lrs : List (LoaderResult K V)) (res : List (CacheResult K V)),
      (∀ lr' ∈ lrs, lr'.key ≠ k) →
      lookupRes k (mergeAll res lrs).1 = lookupRes k res := by
  intro lrs
  induction lrs with
  | nil => intro res _; rfl
  | cons lr lrs ih =>
    intro res h
    show lookupRes k (mergeAll (mergeOne lr res).1 lrs).1 = _
    rw [ih _ fun lr' h' => h lr' (List.mem_cons_of_mem _ h'),
      lookupRes_mergeOne_ne (fun hc => h lr (by simp) hc.symm)]

theorem mergeAll_spec :
    ∀ (lrs : List (LoaderResult K V)), (lrs.map LoaderResult.key).Nodup →
      ∀ {lr : LoaderResult K V}, lr ∈ lrs →
        ∀ (res : List (CacheResult K V)), lr.key ∈ res.map CacheResult.key →
          lookupRes lr.key (mergeAll res lrs).1
              = (lookupRes lr.key res).map (applyLoad lr) ∧
            ((lr.err.isNone && lr.value.isSome) = true → lr ∈ (mergeAll res lrs).2) := by
  intro lrs
  induction lrs with
  | nil => intro _ lr h; simp at h
  | cons lr0 lrs ih =>
    intro hnd lr hmem res hkey
    rw [List.map_cons, List.nodup_cons] at hnd
    rcases List.mem_cons.mp hmem with rfl | hmem'
    · constructor
      · have h2 : ∀ lr' ∈ lrs, lr'.key ≠ lr.key := by
          intro lr' h' hc
          exact hnd.1 (hc ▸ List.mem_map_of_mem LoaderResult.key h')
        show lookupRes lr.key (mergeAll (mergeOne lr res).1 lrs).1 = _
        rw [lookupRes_mergeAll_of_ne lrs _ h2, (lookupRes_mergeOne_self hkey).1]
      · intro hb
        have hm2 : (mergeOne lr res).2 = true := (lookupRes_mergeOne_self hkey).2.trans hb
        show lr ∈ (if (mergeOne lr res).2 then lr :: (mergeAll (mergeOne lr res).1 lrs).2
            else (mergeAll (mergeOne lr res).1 lrs).2)
        simp [hm2]
    · have hlrk : lr.key ≠ lr0.key := by
        intro hc
        exact hnd.1 (hc ▸ List.mem_map_of_mem LoaderResult.key hmem')
      have hkey' : lr.key ∈ ((mergeOne lr0 res).1).map CacheResult.key := by
        rw [mergeOne_keys]
        exact hkey
      rcases ih hnd.2 hmem' (mergeOne lr0 res).1 hkey' with ⟨ih1, ih2⟩
      constructor
      · show lookupRes lr.key (mergeAll (mergeOne lr0 res).1 lrs).1 = _
        rw [ih1, lookupRes_mergeOne_ne hlrk]
      · intro hb
        have hmem2 := ih2 hb
        show lr ∈ (if (mergeOne lr0 res).2 then
            lr0 :: (mergeAll (mergeOne lr0 res).1 lrs).2
            else (mergeAll (mergeOne lr0 res).1 lrs).2)
        split
        · exact List.mem_cons_of_mem _ hmem2
        · exact hmem2

end MergeLemmas

section PartitionLemmas

open PartitionedCache

variable {K V : Type} [DecidableEq K]

theorem idsOf_addToGroups :
    ∀ (gs : List (Nat × List K)) (id : Nat) (k : K),
      (addToGroups gs id k).map Prod.fst
        = if id ∈ gs.map Prod.fst then gs.map Prod.fst else gs.map Prod.fst ++ [id] := by
  intro gs id k
  induction gs with
  | nil => simp [addToGroups]
  | cons g rest ih =>
    by_cases h : g.1 = id
    · rw [addToGroups, if_pos h]
      simp [h]
    · rw [addToGroups, if_neg h]
      simp only [List.map_cons]
      rw [ih]
      by_cases hm : id ∈ rest.map Prod.fst
      · rw [if_pos hm, if_pos (by rw [List.mem_cons]; exact Or.inr hm)]
      · rw [if_neg hm, if_neg (by
          rw [List.mem_cons]
          push_neg
          exact ⟨fun hc => h hc.symm, hm⟩)]
        rfl

theorem nodup_addToGroups {gs : List (Nat × List K)} (h : (gs.map Prod.fst).Nodup)
    (id : Nat) (k : K) : ((addToGroups gs id k).map Prod.fst).Nodup := by
  rw [idsOf_addToGroups]
  split
  · exact h
  · next hm =>
    rw [List.nodup_append]
    exact ⟨h, List.nodup_singleton id, by rwa [List.disjoint_singleton]⟩

theorem flatten_addToGroups :
    ∀ (gs : List (Nat × List K)) (id : Nat) (k : K),
      List.Perm ((addToGroups gs id k).map Prod.snd).flatten
        ((gs.map Prod.snd).flatten ++ [k]) := by
  intro gs id k
  induction gs with
  | nil => simp [addToGroups]
  | cons g rest ih =>
    by_cases h : g.1 = id
    · rw [addToGroups, if_pos h]
      simp only [List.map_cons, List.flatten_cons]
      rw [List.append_assoc, List.append_assoc]
      exact List.Perm.append_left _ List.perm_append_comm
    · rw [addToGroups, if_neg h]
      simp only [List.map_cons, List.flatten_cons]
      rw [List.append_assoc]
      exact List.Perm.append_left _ ih

theorem resolveFrom_ok_nodup (p : PartitionedCache K) :
    ∀ (ks : List K) (gs groups : List (Nat × List K)),
      resolveFrom p gs ks = .ok groups → (gs.map Prod.fst).Nodup →
      (groups.map Prod.fst).Nodup := by
  intro ks
  induction ks with
  | nil =>
    intro gs groups h hnd
    rw [resolveFrom] at h
    cases h
    exact hnd
  | cons k ks ih =>
    intro gs groups h hnd
    rw [resolveFrom] at h
    cases hg : p.getCacheForKey k with
    | error e => rw [hg] at h; cases h
    | ok id =>
      rw [hg] at h
      exact ih _ _ h (nodup_addToGroups hnd id k)

theorem resolveFrom_ok_flatten (p : PartitionedCache K) :
    ∀ (ks : List K) (gs groups : List (Nat × List K)),
      resolveFrom p gs ks = .ok groups →
      List.Perm (groups.map Prod.snd).flatten ((gs.map Prod.snd).flatten ++ ks) := by
  intro ks
  induction ks with
  | nil =>
    intro gs groups h
    rw [resolveFrom] at h
    cases h
    simp
  | cons k ks ih =>
    intro gs groups h
    rw [resolveFrom] at h
    cases hg : p.getCacheForKey k with
    | error e => rw [hg] at h; cases h
    | ok id =>
      rw [hg] at h
      have h1 := ih _ _ h
      have h2 := List.Perm.append_right ks (flatten_addToGroups gs id k)
      have h3 : ((gs.map Prod.snd).flatten ++ [k]) ++ ks
          = (gs.map Prod.snd).flatten ++ (k :: ks) := by
        rw [List.append_assoc, List.singleton_append]
      exact h1.trans (h3 ▸ h2)

theorem resolveFrom_abort (p : PartitionedCache K) {e : Err} {kb : K} (post : List K)
    (hb : p.getCacheForKey kb = .error e) :
    ∀ (pre : List K) (gs : List (Nat × List K)),
      (∀ k' ∈ pre, ∃ i, p.getCacheForKey k' = .ok i) →
      resolveFrom p gs (pre ++ kb :: post) = .error e := by
  intro pre
  induction pre with
  | nil =>
    intro gs _
    rw [List.nil_append, resolveFrom, hb]
  | cons k' pre ih =>
    intro gs h
    rcases h k' (by simp) with ⟨i, hi⟩
    rw [List.cons_append, resolveFrom, hi]
    exact ih _ fun x hx => h x (List.mem_cons_of_mem _ hx)

theorem collect_ok_keys {d : Nat → List K → Except Err (List (CacheResult K V))}
    (H : ∀ id ks rs, d id ks = .ok rs → rs.map CacheResult.key = ks) :
    ∀ (groups : List (Nat × List K)) (res : List (CacheResult K V)),
      collect d groups = .ok res →
      res.map CacheResult.key = (groups.map Prod.snd).flatten := by
  intro groups
  induction groups with
  | nil =>
    intro res h
    rw [collect] at h
    cases h
    rfl
  | cons g rest ih =>
    intro res h
    rw [collect] at h
    cases hd : d g.1 g.2 with
    | error e => rw [hd] at h; cases h
    | ok rs =>
      rw [hd] at h
      cases hc : collect d rest with
      | error e => rw [hc] at h; cases h
      | ok more =>
        rw [hc] at h
        cases h
        rw [List.map_cons, List.flatten_cons, List.map_append, H _ _ _ hd, ih _ hc]

theorem collect_ok_all {d : Nat → List K → Except Err (List (CacheResult K V))} :
    ∀ (groups : List (Nat × List K)) (res : List (CacheResult K V)),
      collect d groups = .ok res → ∀ g ∈ groups, ∃ rs, d g.1 g.2 = .ok rs := by
  intro groups
  induction groups with
  | nil => intro res _ g hg; simp at hg
  | cons g0 rest ih =>
    intro res h g hg
    rw [collect] at h
    cases hd : d g0.1 g0.2 with
    | error e => rw [hd] at h; cases h
    | ok rs =>
      rw [hd] at h
      cases hc : collect d rest with
      | error e => rw [hc] at h; cases h
      | ok more =>
        rcases List.mem_cons.mp hg with rfl | hg'
        · exact ⟨rs, hd⟩
        · exact ih _ hc g hg'

theorem collect_error_of_mem {d : Nat → List K → Except Err (List (CacheResult K V))} :
    ∀ (groups : List (Nat × List K)) {g : Nat × List K} {e : Err},
      g ∈ groups → d g.1 g.2 = .error e → ∃ e', collect d groups = .error e' := by
  intro groups
  induction groups with
  | nil => intro g e hg; simp at hg
  | cons g0 rest ih =>
    intro g e hg hd
    cases hd0 : d g0.1 g0.2 with
    | error e0 =>
      refine ⟨e0, ?_⟩
      rw [collect, hd0]
    | ok rs =>
      rcases List.mem_cons.mp hg with rfl | hg'
      · rw [hd0] at hd; cases hd
      · rcases ih hg' hd with ⟨e', he'⟩
        refine ⟨e', ?_⟩
        rw [collect, hd0, he']

end PartitionLemmas

section CapacityZeroLemmas

variable {K V : Type} [DecidableEq K]

theorem put_entries_no_evict {c : cache K V} {k : K}
    (hf : findEntry k c.entries = none)
    (h : c.capacity = 0 ∨ c.entries.length + 1 ≤ c.capacity) (v : V) :
    (c.put k v).entries = (k, v) :: c.entries := by
  simp only [cache.put, hf]
  rw [if_neg]
  rcases h with h | h
  · rw [List.length_cons]
    omega
  · rw [List.length_cons]
    omega

theorem putAll_entries_cap0 (f : K → V) :
    ∀ (ks : List K), ks.Nodup →
      (putAll (newCache K V 0) f ks).entries = pairs f ks.reverse := by
  intro ks
  induction ks using List.reverseRecOn with
  | nil => intro _; rfl
  | append_singleton l a ih =>
    intro hnd
    rw [List.nodup_append] at hnd
    have ha : a ∉ l := List.disjoint_singleton.mp hnd.2.2
    have hent := ih hnd.1
    rw [putAll_append]
    have hfind : findEntry a (putAll (newCache K V 0) f l).entries = none := by
      rw [hent]
      exact findEntry_pairs_of_not_mem fun hmem => ha (List.mem_reverse.mp hmem)
    have hcap : (putAll (newCache K V 0) f l).capacity = 0 := capacity_putAll _ f l
    rw [put_entries_no_evict hfind (Or.inl hcap), hent, List.reverse_append,
      List.reverse_singleton, List.singleton_append]
    rfl

end CapacityZeroLemmas

/-- Claim C1: for every cache created with a positive capacity, no sequence of
put/get/remove/clear operations pushes the number of stored entries past the
capacity; a put of a new key on a full store removes the back-most
(least-recently-used) entry; and a capacity of 0 imposes no bound (filling
`n` distinct keys yields length `n`). -/
theorem claim_C1 {K V : Type} [DecidableEq K] :
    (∀ (cap : Nat) (ops : List (COp K V)), 0 < cap →
      (runOps (newCache K V cap) ops).len ≤ cap)
    ∧ (∀ (c : cache K V) (k : K) (v : V), 0 < c.capacity →
        c.len = c.capacity → c.containsKey k = false →
        (c.put k v).entries = (k, v) :: c.entries.dropLast)
    ∧ (∀ (n : Nat) (f : Nat → Nat),
        (putAll (newCache Nat Nat 0) f (List.range n)).len = n) := by
  refine ⟨?_, ?_, ?_⟩
  · intro cap ops hpos
    exact len_runOps_le ops (newCache K V cap) hpos (by simp [newCache, cache.len])
  · intro c k v hpos hfull hcont
    have hf : findEntry k c.entries = none := by
      cases hfe : findEntry k c.entries with
      | none => rfl
      | some e => rw [cache.containsKey, hfe] at hcont; simp at hcont
    have hne : c.entries ≠ [] := by
      intro hnil
      rw [cache.len, hnil] at hfull
      simp at hfull
      omega
    rw [put_entries_of_full hf hpos hfull, dropLast_cons_of_ne_nil _ hne]
  · intro n f
    rw [cache.len, putAll_entries_cap0 f (List.range n) (List.nodup_range n),
      pairs_length, List.length_reverse, List.length_range]

theorem claim_C1_witness :
    ((runOps (newCache Nat Nat 2) [COp.put 1 10, COp.put 2 20, COp.put 3 30]).len ≤ 2)
    ∧ ((cache.put ⟨2, [(5, 50), (6, 60)]⟩ 7 (70 : Nat)).entries
        = (7, 70) :: ([((5 : Nat), (50 : Nat)), (6, 60)]).dropLast)
    ∧ ((putAll (newCache Nat Nat 0) (fun i => i) (List.range 5)).len = 5) :=
  ⟨(claim_C1 (K := Nat) (V := Nat)).1 2 _ (by decide),
    (claim_C1 (K := Nat) (V := Nat)).2.1 ⟨2, [(5, 50), (6, 60)]⟩ 7 70 (by decide) (by decide)
      (by decide),
    (claim_C1 (K := Nat) (V := Nat)).2.2 5 _⟩

/-- Claim C2: filling a fresh capacity-`N` cache with `N + k` distinct keys
(`0 .. N+k-1` in order, no intervening reads) leaves exactly `N` entries, and
the retrievable keys are exactly the `N` most recently inserted ones
(`k .. N+k-1`). -/
theorem claim_C2 (N k : Nat) (f : Nat → Nat) (hN : 0 < N) (hk : 0 < k) :
    (putAll (newCache Nat Nat N) f (List.range (N + k))).len = N ∧
    ∀ j : Nat,
      ((putAll (newCache Nat Nat N) f (List.range (N + k))).lookup j).isSome = true
        ↔ (k ≤ j ∧ j < N + k) := by
  obtain ⟨m, rfl⟩ : ∃ m, N = m + 1 := ⟨N - 1, by omega⟩
  have hent := putAll_entries m f (List.range (m + 1 + k)) (List.nodup_range _)
  rw [reverse_range_take (m + 1) k] at hent
  constructor
  · rw [cache.len, hent, pairs_length, List.length_reverse, List.length_map,
      List.length_range]
  · intro j
    have hmem : j ∈ ((List.range (m + 1)).map (fun i => k + i)).reverse
        ↔ (k ≤ j ∧ j < (m + 1) + k) := by
      rw [List.mem_reverse, List.mem_map]
      constructor
      · rintro ⟨i, hi, rfl⟩
        have := List.mem_range.mp hi
        omega
      · rintro ⟨h1, h2⟩
        exact ⟨j - k, List.mem_range.mpr (by omega), by omega⟩
    rw [cache.lookup, hent]
    by_cases hj : j ∈ ((List.range (m + 1)).map (fun i => k + i)).reverse
    · rw [findEntry_pairs_of_mem hj]
      simp only [Option.map_some', Option.isSome_some, true_iff]
      exact hmem.mp hj
    · rw [findEntry_pairs_of_not_mem hj]
      simp only [Option.map_none', Option.isSome_none, Bool.false_eq_true, false_iff]
      intro hc
      exact hj (hmem.mpr hc)

theorem claim_C2_witness :
    ((putAll (newCache Nat Nat 2) (fun i => i) (List.range 3)).len = 2)
    ∧ (((putAll (newCache Nat Nat 2) (fun i => i) (List.range 3)).lookup 0).isSome = true
        ↔ (1 ≤ 0 ∧ 0 < 3)) :=
  ⟨(claim_C2 2 1 (fun i => i) (by decide) (by decide)).1,
    (claim_C2 2 1 (fun i => i) (by decide) (by decide)).2 0⟩

/-- Claim C3: a put of an existing key updates its value and moves it to the
most-recently-used (front) position without changing the length; hence after
filling a capacity-`N` cache with keys `0 .. N-1`, re-putting the oldest key
`0` and then inserting the fresh key `N` evicts the second-oldest key `1`,
not the re-put key `0`. -/
theorem claim_C3 {K V : Type} [DecidableEq K] (c : cache K V) (k : K) (v : V)
    (h : c.containsKey k = true) :
    ((c.put k v).len = c.len ∧ (c.put k v).lookup k = some v ∧
        (c.put k v).entries.head? = some (k, v))
    ∧ ∀ (N : Nat) (f : Nat → Nat) (w : Nat), 2 ≤ N →
        (((putAll (newCache Nat Nat N) f (List.range N)).put 0 w).put N (f N)).lookup 1
            = none
        ∧ (((putAll (newCache Nat Nat N) f (List.range N)).put 0 w).put N (f N)).lookup 0
            = some w
        ∧ (((putAll (newCache Nat Nat N) f (List.range N)).put 0 w).put N (f N)).len = N := by
  constructor
  · rcases Option.isSome_iff_exists.mp h with ⟨e, he⟩
    exact ⟨len_put_of_found he v, lookup_put_self c k v, head_put c k v⟩
  · intro N f w hN
    obtain ⟨M, rfl⟩ : ∃ M, N = M + 2 := ⟨N - 2, by omega⟩
    have hent := rePutScenarioEntries M f w
    refine ⟨?_, ?_, ?_⟩
    · have hnm : (1 : Nat) ∉ (List.map Nat.succ (List.map Nat.succ (List.range M))).reverse := by
        intro hc
        rcases List.mem_map.mp (List.mem_reverse.mp hc) with ⟨x, hx1, hx2⟩
        rcases List.mem_map.mp hx1 with ⟨y, _, hy⟩
        omega
      rw [cache.lookup, hent, findEntry, if_neg (fun hc => by simp at hc), findEntry,
        if_neg (fun hc => by simp at hc), findEntry_pairs_of_not_mem hnm]
      rfl
    · rw [cache.lookup, hent, findEntry, if_neg (fun hc => by simp at hc), findEntry,
        if_pos rfl]
      rfl
    · rw [cache.len, hent, List.length_cons, List.length_cons, pairs_length,
        List.length_reverse, List.length_map, List.length_map, List.length_range]

theorem claim_C3_witness :
    ((cache.put ⟨2, [((1 : Nat), (10 : Nat)), (2, 20)]⟩ 2 99).len
        = (⟨2, [((1 : Nat), (10 : Nat)), (2, 20)]⟩ : cache Nat Nat).len
      ∧ (cache.put ⟨2, [((1 : Nat), (10 : Nat)), (2, 20)]⟩ 2 99).lookup 2 = some 99
      ∧ (cache.put ⟨2, [((1 : Nat), (10 : Nat)), (2, 20)]⟩ 2 99).entries.head?
          = some (2, 99))
    ∧ ((((putAll (newCache Nat Nat 3) (fun i => i) (List.range 3)).put 0 42).put 3 3).lookup 1
          = none
      ∧ (((putAll (newCache Nat Nat 3) (fun i => i) (List.range 3)).put 0 42).put 3 3).lookup 0
          = some 42
      ∧ (((putAll (newCache Nat Nat 3) (fun i => i) (List.range 3)).put 0 42).put 3 3).len
          = 3) :=
  ⟨(claim_C3 ⟨2, [(1, 10), (2, 20)]⟩ 2 99 (by decide)).1,
    (claim_C3 ⟨2, [((1 : Nat), (10 : Nat)), (2, 20)]⟩ 2 99 (by decide)).2 3 (fun i => i) 42
      (by decide)⟩

/-- Claim C4: on any well-formed store, for any single-key operation sequence,
a read issued after a put of value `v` (with only reads in between) returns
`v`, and a read issued after a remove (with only reads in between) reports the
key absent. -/
theorem claim_C4 {K V : Type} [DecidableEq K] (c : cache K V) (k : K) (v : V)
    (ops : List (KOp V)) (hnd : (c.entries.map Prod.fst).Nodup)
    (hops : ∀ op ∈ ops, op = KOp.get) :
    (runKeyOps k (c.put k v) ops).lookup k = some v ∧
    (runKeyOps k (c.remove k) ops).lookup k = none := by
  have hgets : ∀ (ops' : List (KOp V)), (∀ op ∈ ops', op = KOp.get) →
      ∀ (c' : cache K V), (runKeyOps k c' ops').lookup k = c'.lookup k := by
    intro ops'
    induction ops' with
    | nil => intro _ c'; rfl
    | cons op ops' ih =>
      intro hops' c'
      have hop := hops' op (by simp)
      subst hop
      show (runKeyOps k (applyKOp k c' KOp.get) ops').lookup k = _
      rw [ih fun o ho => hops' o (List.mem_cons_of_mem _ ho)]
      exact lookup_get c' k k
  exact ⟨by rw [hgets ops hops, lookup_put_self],
    by rw [hgets ops hops, lookup_remove_self hnd]⟩

theorem claim_C4_witness :
    ((runKeyOps 1 ((⟨0, [((1 : Nat), (5 : Nat))]⟩ : cache Nat Nat).put 1 7)
          [KOp.get, KOp.get]).lookup 1 = some 7)
    ∧ ((runKeyOps 1 ((⟨0, [((1 : Nat), (5 : Nat))]⟩ : cache Nat Nat).remove 1)
          [KOp.get, KOp.get]).lookup 1 = none) :=
  claim_C4 ⟨0, [(1, 5)]⟩ 1 7 [KOp.get, KOp.get] (by decide) (by decide)

/-- Claim C9: with a context that is not already cancelled, `PutBatch` on an
empty list of pairs returns success immediately with no state change — also
on an already-closed cache, where no availability error is reported. -/
theorem claim_C9 {K V : Type} [DecidableEq K] (c : BasicCache K V) :
    c.PutBatch false [] = (.ok (), c)
    ∧ (c.Close).PutBatch false [] = (.ok (), c.Close) :=
  ⟨rfl, rfl⟩

/-- Claim C6: a pair whose value is nil makes `PutBatch` return the dedicated
validation error before that pair touches the cache; processing stops there,
and the pairs already applied before the failing pair remain applied (no
rollback), while the remaining pairs are never applied. -/
theorem claim_C6 {K V : Type} [DecidableEq K] (c : BasicCache K V)
    (good : List (KeyVal K V)) (bk : K) (rest : List (KeyVal K V))
    (hclosed : c.closed = false)
    (hgood : ∀ kv ∈ good, kv.value.isSome = true) :
    c.PutBatch false (good ++ ⟨bk, none⟩ :: rest)
      = (.error .invalidValue, { c with store := applyPuts c.store good }) := by
  rw [BasicCache.PutBatch, if_neg (by simp), if_neg (by simp), hclosed,
    putLoop_append_invalid bk rest good c.store hgood]

theorem claim_C6_witness :
    BasicCache.PutBatch (newBasicCache Nat Nat 0) false
        [⟨1, some 10⟩, ⟨2, none⟩, ⟨3, some 30⟩]
      = (.error .invalidValue,
          { newBasicCache Nat Nat 0 with
              store := applyPuts (newBasicCache Nat Nat 0).store [⟨1, some 10⟩] }) :=
  claim_C6 (newBasicCache Nat Nat 0) [⟨1, some 10⟩] 2 [⟨3, some 30⟩] rfl (by decide)

/-- Claim C5 counterexample: after `Close()`, `PartitionedCache.Len` iterates
an empty partition table and returns 0 with no error — not the availability
error the claim promises for every post-Close call. -/
theorem claim_C5_counterexample :
    PartitionedCache.Len
        (PartitionedCache.Close
          (⟨fun _ => Except.ok 0, [(0, 0)]⟩ : PartitionedCache Nat))
        (fun _ => Except.ok 0) = Except.ok 0
    ∧ PartitionedCache.Len
        (PartitionedCache.Close
          (⟨fun _ => Except.ok 0, [(0, 0)]⟩ : PartitionedCache Nat))
        (fun _ => Except.ok 0) ≠ Except.error Err.invalidCache :=
  ⟨rfl, fun h => Except.noConfusion h⟩

/-- Claim C5 (amended): after `Close()`, every `BasicCache` call made with a
live context — and, for `PutBatch`, a non-empty batch whose first value is
non-nil — returns the availability error, and a second `Close()` is a no-op;
on a closed `PartitionedCache` every key-resolving call returns the
availability error, while `Len` returns 0 with no error. -/
theorem claim_C5 {K V : Type} [DecidableEq K] (c : BasicCache K V)
    (hc : c.closed = true) (keys : List K) (k : K) (w : V)
    (rest : List (KeyVal K V)) (p : PartitionedCache K)
    (dLen : Nat → Except Err Nat)
    (d : Nat → List K → Except Err (List (CacheResult K V))) :
    c.GetBatch false keys = (.error .invalidCache, c)
    ∧ c.Get false k = ((none, false, some .invalidCache), c)
    ∧ c.Len = (.error .invalidCache, c)
    ∧ c.Remove k = (.error .invalidCache, c)
    ∧ c.PutBatch false (⟨k, some w⟩ :: rest) = (.error .invalidCache, c)
    ∧ c.Put false k (some w) = (.error .invalidCache, c)
    ∧ c.Close.Close = c.Close
    ∧ (p.Close).Len dLen = .ok 0
    ∧ (p.Close).getCacheForKey k = .error .invalidCache
    ∧ (p.Close).GetBatch d false (k :: keys) = (.error .invalidCache, []) := by
  obtain ⟨cl, st⟩ := c
  have hcl : cl = true := hc
  subst hcl
  refine ⟨?_, ?_, ?_, ?_, ?_, ?_, rfl, rfl, rfl, rfl⟩
  · simp [BasicCache.GetBatch]
  · simp [BasicCache.Get, BasicCache.GetBatch]
  · simp [BasicCache.Len]
  · simp [BasicCache.Remove]
  · simp [BasicCache.PutBatch, BasicCache.putLoop]
  · simp [BasicCache.Put, BasicCache.PutBatch, BasicCache.putLoop]

theorem claim_C5_witness :
    BasicCache.GetBatch (⟨true, newCache Nat Nat 1⟩ : BasicCache Nat Nat) false [5]
      = (.error .invalidCache, (⟨true, newCache Nat Nat 1⟩ : BasicCache Nat Nat)) :=
  (claim_C5 ⟨true, newCache Nat Nat 1⟩ rfl [5] 5 9 []
      ⟨fun _ => Except.ok 0, [(0, 0)]⟩ (fun _ => Except.ok 0) (fun _ _ => Except.ok [])).1

/-- Claim C10: `LoadingCache.GetBatch` validates loader results only by count
and merges each into the first response entry with an equal key: a result
whose key was not requested is silently ignored (and never queued for
write-back), and a result with nil error and nil value overwrites the value
with nil while leaving OK and Err unchanged — so a missing key can come back
not-found with no error although the loader ran and reported none. -/
theorem claim_C10 {K V : Type} [DecidableEq K] :
    (∀ (lr : LoaderResult K V) (res : List (CacheResult K V)),
        lr.key ∉ res.map CacheResult.key → mergeOne lr res = (res, false))
    ∧ (∀ (lr : LoaderResult K V) (cr : CacheResult K V),
        lr.err = none → lr.value = none →
        applyLoad lr cr = { cr with value := none })
    ∧ LoadingCache.GetBatch (newBasicCache Nat Nat 0)
          (fun _ => ([⟨5, some 9, none⟩, ⟨0, none, none⟩], none)) false [0, 1]
        = (.ok [⟨0, none, false, none⟩, ⟨1, none, false, none⟩],
            ⟨false, ⟨0, []⟩⟩, [[0, 1]], []) := by
  refine ⟨fun lr res h => mergeOne_not_mem h, ?_, ?_⟩
  · intro lr cr he hv
    rw [applyLoad, if_neg (by rw [he]; simp), hv]
    simp
  · rfl

theorem claim_C10_witness :
    (mergeOne (⟨5, some 9, none⟩ : LoaderResult Nat Nat)
        [⟨0, none, false, none⟩, ⟨1, none, false, none⟩]
      = ([⟨0, none, false, none⟩, ⟨1, none, false, none⟩], false))
    ∧ (applyLoad (⟨0, none, none⟩ : LoaderResult Nat Nat) ⟨0, none, false, none⟩
        = { (⟨0, none, false, none⟩ : CacheResult Nat Nat) with value := none }) :=
  ⟨(claim_C10 (K := Nat) (V := Nat)).1 ⟨5, some 9, none⟩
      [⟨0, none, false, none⟩, ⟨1, none, false, none⟩] (by decide),
    (claim_C10 (K := Nat) (V := Nat)).2.1 ⟨0, none, none⟩ ⟨0, none, false, none⟩ rfl rfl⟩

/-- Claim C8: `PartitionedCache.GetBatch` resolves every key to its delegate
up front, aborting with the first resolution error before any delegate call;
keys are grouped by delegate, one `GetBatch` invocation is issued per distinct
delegate, and on success the concatenated results hold exactly one
`CacheResult` per requested key (result keys are a permutation of the
requested keys, given each delegate answers one result per key); an error from
any delegate fails the entire call with no partial result. -/
theorem claim_C8 {K V : Type} [DecidableEq K] (p : PartitionedCache K)
    (d : Nat → List K → Except Err (List (CacheResult K V)))
    (H : ∀ id ks rs, d id ks = .ok rs → rs.map CacheResult.key = ks) :
    (∀ (pre post : List K) (kb : K) (e : Err),
        (∀ k' ∈ pre, ∃ i, p.getCacheForKey k' = .ok i) →
        p.getCacheForKey kb = .error e →
        p.GetBatch d false (pre ++ kb :: post) = (.error e, []))
    ∧ (∀ (keys : List K) (res : List (CacheResult K V)) (log : List (Nat × List K)),
        p.GetBatch d false keys = (.ok res, log) →
        (log.map Prod.fst).Nodup
        ∧ List.Perm (log.map Prod.snd).flatten keys
        ∧ List.Perm (res.map CacheResult.key) keys
        ∧ ∀ g ∈ log, ∃ rs, d g.1 g.2 = .ok rs)
    ∧ (∀ (keys : List K) (groups : List (Nat × List K)) (g : Nat × List K) (e : Err),
        PartitionedCache.resolveFrom p [] keys = .ok groups →
        g ∈ groups → d g.1 g.2 = .error e →
        ∃ e', p.GetBatch d false keys = (.error e', groups)) := by
  refine ⟨?_, ?_, ?_⟩
  · intro pre post kb e hpre hb
    rw [PartitionedCache.GetBatch, if_neg (by simp),
      resolveFrom_abort p post hb pre [] hpre]
  · intro keys res log h
    rw [PartitionedCache.GetBatch, if_neg (by simp)] at h
    cases hres : PartitionedCache.resolveFrom p [] keys with
    | error e =>
      rw [hres] at h
      simp at h
    | ok groups =>
      rw [hres] at h
      have h1 : PartitionedCache.collect d groups = .ok res := congrArg Prod.fst h
      have h2 : groups = log := congrArg Prod.snd h
      subst h2
      refine ⟨resolveFrom_ok_nodup p keys [] _ hres (by simp), ?_, ?_,
        collect_ok_all _ _ h1⟩
      · have hfl := resolveFrom_ok_flatten p keys [] _ hres
        simpa using hfl
      · rw [collect_ok_keys H _ _ h1]
        have hfl := resolveFrom_ok_flatten p keys [] _ hres
        simpa using hfl
  · intro keys groups g e hres hg hd
    rcases collect_error_of_mem groups hg hd with ⟨e', he'⟩
    refine ⟨e', ?_⟩
    rw [PartitionedCache.GetBatch, if_neg (by simp), hres]
    show (PartitionedCache.collect d groups, groups) = _
    rw [he']

theorem claim_C8_witness :
    ((([(10, [0, 2]), (11, [1])] : List (Nat × List Nat)).map Prod.fst).Nodup) :=
  ((claim_C8 (⟨fun k => Except.ok (k % 2), [(0, 10), (1, 11)]⟩ : PartitionedCache Nat)
      (fun id ks =>
        Except.ok (ks.map (fun k => (⟨k, some id, true, none⟩ : CacheResult Nat Nat))))
      (by
        intro id ks rs h
        injection h with h1
        subst h1
        simp [List.map_map]
        exact List.map_id ks)).2.1 [0, 1, 2]
    [⟨0, some 10, true, none⟩, ⟨2, some 10, true, none⟩, ⟨1, some 11, true, none⟩]
    [(10, [0, 2]), (11, [1])] rfl).1

section LoadingOpenLemmas

variable {K V : Type} [DecidableEq K]

theorem basic_getBatch_open {c : BasicCache K V} (hclosed : c.closed = false)
    (keys : List K) :
    c.GetBatch false keys = (.ok (baseResults c keys), afterGets c keys) := by
  simp [BasicCache.GetBatch, hclosed, afterGets, baseResults,
    (getFold_results keys c.store).1]

theorem loaderKeys_eq_missing (c : BasicCache K V) (keys : List K) :
    ((baseResults c keys).filter (fun r => r.err.isSome || !r.ok)).map CacheResult.key
      = missingOf c keys :=
  loaderKeys_eq c.store keys

theorem baseResults_length (c : BasicCache K V) (keys : List K) :
    (baseResults c keys).length = keys.length := by
  simp [baseResults]

theorem baseResults_keys (c : BasicCache K V) (keys : List K) :
    (baseResults c keys).map CacheResult.key = keys := by
  induction keys with
  | nil => rfl
  | cons k ks ih => simpa [baseResults] using ih

theorem isEmpty_false_of_ne_nil {l : List K} (h : l ≠ []) : l.isEmpty = false := by
  cases l with
  | nil => exact absurd rfl h
  | cons a as => rfl

theorem loading_open_hit {c : BasicCache K V} (hclosed : c.closed = false)
    (loader : List K → List (LoaderResult K V) × Option Err) (keys : List K)
    (hm : missingOf c keys = []) :
    LoadingCache.GetBatch c loader false keys
      = (.ok (baseResults c keys), afterGets c keys, [], []) := by
  simp [LoadingCache.GetBatch, basic_getBatch_open hclosed keys, loaderKeys_eq_missing,
    baseResults_length, hm]

theorem loading_open_loaderError {c : BasicCache K V} (hclosed : c.closed = false)
    {loader : List K → List (LoaderResult K V) × Option Err} {keys : List K} {e : Err}
    (hm : missingOf c keys ≠ []) (hl : (loader (missingOf c keys)).2 = some e) :
    LoadingCache.GetBatch c loader false keys
      = (.error e, afterGets c keys, [missingOf c keys], []) := by
  simp [LoadingCache.GetBatch, basic_getBatch_open hclosed keys, loaderKeys_eq_missing,
    baseResults_length, isEmpty_false_of_ne_nil hm, hl]

theorem loading_open_mismatch {c : BasicCache K V} (hclosed : c.closed = false)
    {loader : List K → List (LoaderResult K V) × Option Err} {keys : List K}
    (hm : missingOf c keys ≠ []) (hl : (loader (missingOf c keys)).2 = none)
    (hne : (loader (missingOf c keys)).1.length ≠ (missingOf c keys).length) :
    LoadingCache.GetBatch c loader false keys
      = (.error .unknown, afterGets c keys, [missingOf c keys], []) := by
  simp [LoadingCache.GetBatch, basic_getBatch_open hclosed keys, loaderKeys_eq_missing,
    baseResults_length, isEmpty_false_of_ne_nil hm, hl, hne]

theorem loading_open_merge {c : BasicCache K V} (hclosed : c.closed = false)
    {loader : List K → List (LoaderResult K V) × Option Err} {keys : List K}
    (hm : missingOf c keys ≠ []) (hl : (loader (missingOf c keys)).2 = none)
    (hlen : (loader (missingOf c keys)).1.length = (missingOf c keys).length) :
    LoadingCache.GetBatch c loader false keys
      = (.ok (mergeAll (baseResults c keys) (loader (missingOf c keys)).1).1,
          afterGets c keys, [missingOf c keys],
          (mergeAll (baseResults c keys) (loader (missingOf c keys)).1).2) := by
  simp [LoadingCache.GetBatch, basic_getBatch_open hclosed keys, loaderKeys_eq_missing,
    baseResults_length, isEmpty_false_of_ne_nil hm, hl, hlen]

end LoadingOpenLemmas

/-- Claim C7: on a live `LoadingCache`, a batch get with no missing keys never
invokes the loader; when some keys come back not-found or errored, the loader
is invoked exactly once with exactly that missing subset; a loader answer
whose count differs from the missing count makes the call return the Unknown
error; otherwise each loader result is merged back by key — a per-key load
error marks that key not-found with the error attached, and a non-nil loaded
value marks it found and queues it for background cache insertion. -/
theorem claim_C7 {K V : Type} [DecidableEq K] (c : BasicCache K V)
    (loader : List K → List (LoaderResult K V) × Option Err)
    (keys : List K) (hclosed : c.closed = false) :
    (missingOf c keys = [] →
      LoadingCache.GetBatch c loader false keys
        = (.ok (baseResults c keys), afterGets c keys, [], []))
    ∧ (missingOf c keys ≠ [] →
        (LoadingCache.GetBatch c loader false keys).2.2.1 = [missingOf c keys])
    ∧ (missingOf c keys ≠ [] → (loader (missingOf c keys)).2 = none →
        (loader (missingOf c keys)).1.length ≠ (missingOf c keys).length →
        (LoadingCache.GetBatch c loader false keys).1 = .error .unknown)
    ∧ (missingOf c keys ≠ [] → (loader (missingOf c keys)).2 = none →
        (loader (missingOf c keys)).1.length = (missingOf c keys).length →
        ((loader (missingOf c keys)).1.map LoaderResult.key).Nodup →
        ∃ res' tc,
          (LoadingCache.GetBatch c loader false keys).1 = .ok res'
          ∧ (LoadingCache.GetBatch c loader false keys).2.2.2 = tc
          ∧ ∀ lr ∈ (loader (missingOf c keys)).1, lr.key ∈ keys →
              (∀ e, lr.err = some e → ∃ cr, lookupRes lr.key res' = some cr ∧
                  cr.ok = false ∧ cr.err = some e)
              ∧ (lr.err = none → lr.value.isSome = true →
                  ∃ cr, lookupRes lr.key res' = some cr ∧
                    cr.ok = true ∧ cr.value = lr.value ∧ lr ∈ tc)) := by
  refine ⟨fun hm => loading_open_hit hclosed loader keys hm, ?_, ?_, ?_⟩
  · intro hm
    cases hl : (loader (missingOf c keys)).2 with
    | some e => rw [loading_open_loaderError hclosed hm hl]
    | none =>
      by_cases hlen : (loader (missingOf c keys)).1.length = (missingOf c keys).length
      · rw [loading_open_merge hclosed hm hl hlen]
      · rw [loading_open_mismatch hclosed hm hl hlen]
  · intro hm hl hne
    rw [loading_open_mismatch hclosed hm hl hne]
  · intro hm hl hlen hnd
    refine ⟨(mergeAll (baseResults c keys) (loader (missingOf c keys)).1).1,
      (mergeAll (baseResults c keys) (loader (missingOf c keys)).1).2, ?_, ?_, ?_⟩
    · rw [loading_open_merge hclosed hm hl hlen]
    · rw [loading_open_merge hclosed hm hl hlen]
    · intro lr hmem hkeys
      have hkb : lr.key ∈ (baseResults c keys).map CacheResult.key := by
        rw [baseResults_keys]
        exact hkeys
      have hspec := mergeAll_spec (loader (missingOf c keys)).1 hnd hmem
        (baseResults c keys) hkb
      rcases Option.isSome_iff_exists.mp (lookupRes_isSome_iff.mpr hkb) with ⟨cr0, hcr0⟩
      constructor
      · intro e he
        refine ⟨applyLoad lr cr0, ?_, ?_, ?_⟩
        · rw [hspec.1, hcr0]
          rfl
        · rw [applyLoad, if_pos (by rw [he]; rfl)]
        · rw [applyLoad, if_pos (by rw [he]; rfl)]
          exact he
      · intro he hv
        have happ : applyLoad lr cr0
            = { cr0 with value := lr.value, ok := lr.value.isSome || cr0.ok } := by
          rw [applyLoad, if_neg (by rw [he]; simp)]
        refine ⟨applyLoad lr cr0, ?_, ?_, ?_, ?_⟩
        · rw [hspec.1, hcr0]
          rfl
        · rw [happ]
          simp [hv]
        · rw [happ]
        · refine hspec.2 ?_
          rw [he]
          simp [hv]

theorem claim_C7_witness :
    (LoadingCache.GetBatch (⟨false, ⟨0, [(0, 100)]⟩⟩ : BasicCache Nat Nat)
        (fun _ => ([⟨1, some 7, none⟩], none)) false [0, 1]).2.2.1
      = [missingOf (⟨false, ⟨0, [(0, 100)]⟩⟩ : BasicCache Nat Nat) [0, 1]] :=
  (claim_C7 ⟨false, ⟨0, [(0, 100)]⟩⟩ (fun _ => ([⟨1, some 7, none⟩], none)) [0, 1]
      rfl).2.1 (by decide)

end LruSpec
